import Mathlib

deriving instance DecidableEq for Except

/-!
Verification of the expression-evaluator pipeline in `src/app.py`
(validate, normalize, tokenize, shunting-yard conversion, postfix
evaluation).  Strings are modelled as `List Char`; tokens, which the
source keeps as Python strings, are modelled as `List Char` as well.
Numeric values are modelled as rationals: every arithmetic operation
exercised by the claims (small-integer add, subtract, multiply, divide,
integer powers) is exact in Python double-precision floats, so the
rational model agrees with the source on these inputs.  Fallible code
returns `Except`; the error constructors are named after the error
taxonomy the exceptions, assertion failures and IndexErrors of the
source correspond to.
-/

namespace App

/-- Tokens are Python strings in the source; modelled as character lists. -/
abbrev Tok := List Char

/-- `BASE_OPERATORS = "+-*/^"` from the source. -/
def BASE_OPERATORS : List Char := ['+', '-', '*', '/', '^']

/-- `DIGITS = "0123456789."` from the source. -/
def DIGITS : List Char := ['0', '1', '2', '3', '4', '5', '6', '7', '8', '9', '.']

/-- `PARENTHESIS = "()"` from the source. -/
def PARENTHESIS : List Char := ['(', ')']

/-- The whitespace characters recognised by Python `str.split()` and by the
regex class backslash-s on ASCII input: space, tab, newline, carriage
return, vertical tab, form feed. -/
def isPySpace (c : Char) : Bool :=
  c == ' ' || c == '\t' || c == '\n' || c == '\r' || c == Char.ofNat 11 || c == Char.ofNat 12

/-- Errors raised by `validate_expression` in the source (each `raise
Exception(...)` site, named after the taxonomy of the spec; the two
mismatched-parenthesis raise sites are one kind). -/
inductive ValErr
  | EmptyInput
  | IllegalCharacter
  | AdjacentNumbers
  | UnbalancedParentheses
deriving DecidableEq

/-- `valid_chars = "0123456789+-*/().^ "` from the source. -/
def valid_chars : List Char :=
  ['0', '1', '2', '3', '4', '5', '6', '7', '8', '9',
   '+', '-', '*', '/', '(', ')', '.', '^', ' ']

/-- After skipping any further whitespace, the next character is a digit.
Used to model the regex digit-whitespace-digit search: the quantified
whitespace run can only succeed on the maximal run, so skipping the whole
run is equivalent to regex backtracking. -/
def wsRunDigit : List Char → Bool
  | [] => false
  | c :: rest => if isPySpace c then wsRunDigit rest else c.isDigit

/-- The list starts with at least one whitespace character followed
(after more whitespace) by a digit. -/
def headWsDigit : List Char → Bool
  | [] => false
  | c :: rest => isPySpace c && wsRunDigit rest

/-- Model of `re.search` for the pattern digit, one-or-more whitespace,
digit, from `validate_expression`. -/
def hasAdjacentNumbers : List Char → Bool
  | [] => false
  | c :: rest => (c.isDigit && headWsDigit rest) || hasAdjacentNumbers rest

/-- The parenthesis-counting loop of `validate_expression`: increment on
an open parenthesis, decrement on a close, raise as soon as the counter
is negative, and raise at the end if it stayed positive. -/
def parenScan : List Char → Int → Except ValErr Bool
  | [], n => if 0 < n then .error .UnbalancedParentheses else .ok true
  | c :: rest, n =>
    let n' : Int := if c == '(' then n + 1 else if c == ')' then n - 1 else n
    if n' < 0 then .error .UnbalancedParentheses else parenScan rest n'

/-- `validate_expression` from the source.  Note the emptiness test is
Python falsiness of the string, which holds only for the empty string;
a whitespace-only string is truthy and proceeds to the later checks. -/
def validate_expression (e : List Char) : Except ValErr Bool :=
  if e.isEmpty then .error .EmptyInput
  else if e.any (fun c => !(valid_chars.contains c)) then .error .IllegalCharacter
  else if hasAdjacentNumbers e then .error .AdjacentNumbers
  else parenScan e 0

/-- Claim-side predicate, following the wording of the spec: scanning
left to right while incrementing a counter on an open parenthesis and
decrementing on a close, the counter goes negative at some position or
ends nonzero. -/
def spec_counter_bad : List Char → Int → Bool
  | [], n => !(n == 0)
  | c :: rest, n =>
    let n' : Int := if c == '(' then n + 1 else if c == ')' then n - 1 else n
    if n' < 0 then true else spec_counter_bad rest n'

/-- Model of one `re.sub` pass over a two-character pattern `p`-then-`q`
with replacement group1, star, group2: scan left to right, matches do
not overlap, scanning resumes after a matched pair.  Used for the three
rewrite rules of `insert_assumed_multiplication`. -/
def subPair (p q : Char → Bool) : List Char → List Char
  | [] => []
  | [c] => [c]
  | c1 :: c2 :: rest =>
    if p c1 && q c2 then c1 :: '*' :: c2 :: subPair p q rest
    else c1 :: subPair p q (c2 :: rest)

/-- `insert_assumed_multiplication` from the source: strip all
whitespace (join of split), then the three `re.sub` passes: digit
before an open parenthesis, close parenthesis before a digit, close
parenthesis before an open parenthesis. -/
def insert_assumed_multiplication (e : List Char) : List Char :=
  let e0 := e.filter (fun c => !(isPySpace c))
  let e1 := subPair Char.isDigit (fun c => c == '(') e0
  let e2 := subPair (fun c => c == ')') Char.isDigit e1
  subPair (fun c => c == ')') (fun c => c == '(') e2

/-- Claim-side predicate (from the wording of the spec): the list has an
adjacent pair matching pattern `p`-then-`q`. -/
def hasPairAt (p q : Char → Bool) : List Char → Bool
  | [] => false
  | [_] => false
  | c1 :: c2 :: rest => (p c1 && q c2) || hasPairAt p q (c2 :: rest)

/-- Claim-side predicate (from the wording of the spec): the string
contains an adjacent implicit-multiplication pattern, i.e. one of the
three pairs rewritten by the normalizer. -/
def hasMulPattern (l : List Char) : Bool :=
  hasPairAt Char.isDigit (fun c => c == '(') l ||
  hasPairAt (fun c => c == ')') Char.isDigit l ||
  hasPairAt (fun c => c == ')') (fun c => c == '(') l

/-- `tokenize` from the source: cursor loop with the `is_infix` flag.
Branch order as in the source: unary minus, operators and parentheses,
maximal digit runs, silently skipped characters. -/
def tokenizeAux : List Char → Bool → List Tok
  | [], _ => []
  | c :: rest, expectingOp =>
    if !expectingOp && c == '-' then
      ['~'] :: tokenizeAux rest expectingOp
    else if BASE_OPERATORS.contains c || PARENTHESIS.contains c then
      [c] :: tokenizeAux rest (c == ')')
    else if DIGITS.contains c then
      (c :: rest.takeWhile (fun d => DIGITS.contains d)) ::
        tokenizeAux (rest.dropWhile (fun d => DIGITS.contains d)) true
    else
      tokenizeAux rest false
termination_by l _ => l.length
decreasing_by
  all_goals simp_wf
  exact Nat.lt_succ_of_le (List.IsSuffix.length_le (List.dropWhile_suffix _))

/-- The generator `tokenize(expression)` collected into a list;
`is_infix` starts false. -/
def tokenize (e : List Char) : List Tok := tokenizeAux e false

/-- The value a given token parses to under Python `float()`, if any,
as a rational.  Modelled from the builtin: optional surrounding
whitespace, optional sign, then digits with an optional decimal point
(at least one digit overall).  The inf, nan, exponent and underscore
forms of `float()` contain letters or underscores, which cannot occur
in a token of this pipeline, and are omitted. -/
def digitsVal (l : List Char) : Nat :=
  l.foldl (fun a c => 10 * a + (c.toNat - '0'.toNat)) 0

/-- The unsigned part of the `float()` grammar: digits, optionally a
decimal point and more digits, with at least one digit present. -/
def parseDecimal (l : List Char) : Option ℚ :=
  let ip := l.takeWhile Char.isDigit
  let r1 := l.dropWhile Char.isDigit
  match r1 with
  | [] => if ip.isEmpty then none else some (digitsVal ip : ℚ)
  | '.' :: r2 =>
    let fp := r2.takeWhile Char.isDigit
    let r3 := r2.dropWhile Char.isDigit
    if r3.isEmpty && (!ip.isEmpty || !fp.isEmpty) then
      some ((digitsVal ip : ℚ) + (digitsVal fp : ℚ) / ((10 : ℚ) ^ fp.length))
    else none
  | _ => none

/-- Python `float(token)` on a token, returning the parsed value. -/
def pyfloat (t : Tok) : Option ℚ :=
  let t1 := t.dropWhile isPySpace
  let t2 := (t1.reverse.dropWhile isPySpace).reverse
  match t2 with
  | '+' :: r => parseDecimal r
  | '-' :: r => (parseDecimal r).map (fun v => -v)
  | r => parseDecimal r

/-- `is_float` from the source: whether `float(token)` succeeds. -/
def is_float (t : Tok) : Bool := (pyfloat t).isSome

/-- The keys of the `operators` table of `shunting_yard`. -/
def isOpTok (t : Tok) : Bool :=
  t == ['+'] || t == ['-'] || t == ['/'] || t == ['*'] || t == ['~'] || t == ['^']

/-- Associativity values of the `OperatorInfo` table. -/
inductive Assoc
  | Left
  | Right
deriving DecidableEq, BEq

/-- Precedence column of the `operators` table of `shunting_yard`
(the value for a non-operator token is never consulted). -/
def precOf (t : Tok) : Nat :=
  if t == ['+'] then 10
  else if t == ['-'] then 10
  else if t == ['/'] then 20
  else if t == ['*'] then 20
  else if t == ['~'] then 30
  else if t == ['^'] then 30
  else 0

/-- Associativity column of the `operators` table of `shunting_yard`. -/
def assocOf (t : Tok) : Assoc :=
  if t == ['~'] || t == ['^'] then .Right else .Left

/-- The left parenthesis token. -/
def lparenT : Tok := ['(']

/-- The right parenthesis token. -/
def rparenT : Tok := [')']

/-- Conversion failure: covers the IndexError raised by indexing an
empty operator stack on a close parenthesis and the assertion failures
of `shunting_yard`; the taxonomy of the spec calls all of these
MismatchedParenthesis. -/
inductive ConvErr
  | MismatchedParenthesis
deriving DecidableEq

/-- The inner while loop of the operator branch of `shunting_yard`: pop
while the stack is non-empty, its top is not an open parenthesis, and
the top has higher precedence than the incoming token, or equal
precedence with the incoming token left-associative.  Returns the new
stack and output queue. -/
def popWhileHigher (t : Tok) : List Tok → List Tok → List Tok × List Tok
  | [], out => ([], out)
  | s :: st, out =>
    if !(s == lparenT) &&
        (precOf s > precOf t || (precOf s == precOf t && assocOf t == Assoc.Left)) then
      popWhileHigher t st (out ++ [s])
    else (s :: st, out)

/-- The close-parenthesis branch of `shunting_yard`: pop operators to
the output queue until an open parenthesis is on top, then discard it;
indexing an empty stack raises (IndexError in the source). -/
def popUntilParen : List Tok → List Tok → Except ConvErr (List Tok × List Tok)
  | [], _ => .error .MismatchedParenthesis
  | s :: st, out =>
    if s == lparenT then .ok (st, out) else popUntilParen st (out ++ [s])

/-- The final flush loop of `shunting_yard`: pop every remaining
operator to the output queue, asserting that none is an open
parenthesis. -/
def flushAll : List Tok → List Tok → Except ConvErr (List Tok)
  | [], out => .ok out
  | s :: st, out =>
    if s == lparenT then .error .MismatchedParenthesis else flushAll st (out ++ [s])

/-- One iteration of the token loop of `shunting_yard`.  Branch order as
in the source: numbers to the queue, operators via the precedence loop,
open parentheses pushed, close parentheses via `popUntilParen`; a token
matching none of these is silently dropped (the source `for` body has
no final `else`). -/
def syStep (t : Tok) (st out : List Tok) : Except ConvErr (List Tok × List Tok) :=
  if is_float t then .ok (st, out ++ [t])
  else if isOpTok t then
    let p := popWhileHigher t st out
    .ok (t :: p.1, p.2)
  else if t == lparenT then .ok (lparenT :: st, out)
  else if t == rparenT then popUntilParen st out
  else .ok (st, out)

/-- The token loop of `shunting_yard` followed by the final flush. -/
def syRun : List Tok → List Tok → List Tok → Except ConvErr (List Tok)
  | [], st, out => flushAll st out
  | t :: ts, st, out =>
    match syStep t st out with
    | .error e => .error e
    | .ok p => syRun ts p.1 p.2

/-- `shunting_yard` from the source: infix token list to postfix token
list, starting from an empty operator stack and output queue. -/
def shunting_yard (ts : List Tok) : Except ConvErr (List Tok) := syRun ts [] []

/-- Evaluation failure: StackUnderflow covers every IndexError from
popping or returning from an empty value stack; DivisionByZero is the
divide-by-zero raise; InvalidOperator is the fall-through raise of the
match statement. -/
inductive EvalErr
  | StackUnderflow
  | DivisionByZero
  | InvalidOperator (t : Tok)
deriving DecidableEq

/-- Python `left ** right` on the rational model: defined for integer
exponents (the only exponents the claims exercise); a fractional
exponent leaves the rationals and is mapped to zero, outside the model. -/
def pypow (l r : ℚ) : ℚ :=
  if r.den = 1 then
    (if 0 ≤ r.num then l ^ r.num.toNat else (l ^ r.num.natAbs)⁻¹)
  else 0

/-- One iteration of the token loop of `evaluate_postfix`.  Branch order
as in the source: parseable numbers pushed, the unary-negation token
popping one value, and otherwise popping right then left before the
match on the operator symbol. -/
def evalStep (stack : List ℚ) (t : Tok) : Except EvalErr (List ℚ) :=
  match pyfloat t with
  | some v => .ok (v :: stack)
  | none =>
    if t == ['~'] then
      match stack with
      | [] => .error .StackUnderflow
      | x :: s => .ok (-x :: s)
    else
      match stack with
      | r :: l :: s =>
        if t == ['+'] then .ok ((l + r) :: s)
        else if t == ['-'] then .ok ((l - r) :: s)
        else if t == ['*'] then .ok ((l * r) :: s)
        else if t == ['/'] then
          (if r = 0 then .error .DivisionByZero else .ok ((l / r) :: s))
        else if t == ['^'] then .ok (pypow l r :: s)
        else .error (.InvalidOperator t)
      | _ => .error .StackUnderflow

/-- The token loop of `evaluate_postfix` over the whole sequence. -/
def evalLoop : List Tok → List ℚ → Except EvalErr (List ℚ)
  | [], s => .ok s
  | t :: ts, s =>
    match evalStep s t with
    | .error e => .error e
    | .ok s' => evalLoop ts s'

/-- `evaluate_postfix` from the source: run the loop from an empty value
stack, then return the final `stack.pop()`; popping an empty stack at
the end raises (IndexError), and any values below the top are silently
discarded. -/
def evaluate_postfix (pf : List Tok) : Except EvalErr ℚ :=
  match evalLoop pf [] with
  | .error e => .error e
  | .ok [] => .error .StackUnderflow
  | .ok (v :: _) => .ok v

/-- A token that is not a parenthesis. -/
def nonParen (t : Tok) : Bool := !(t == lparenT) && !(t == rparenT)

/-- A token the converter recognizes: a parseable number, an operator
key, or a parenthesis. -/
def recogTok (t : Tok) : Bool :=
  is_float t || isOpTok t || t == lparenT || t == rparenT

/-- Invariant of the converter: the operator stack only ever holds
operator tokens and open parentheses. -/
def stackOk (st : List Tok) : Prop := ∀ x ∈ st, isOpTok x = true ∨ x = lparenT

/-- Keep every stack entry other than an open parenthesis. -/
def keepTok (t : Tok) : Bool := !(t == lparenT)

/-- Errors of the whole pipeline, by stage. -/
inductive Err
  | Val (e : ValErr)
  | Conv (e : ConvErr)
  | Eval (e : EvalErr)
deriving DecidableEq

/-- The per-expression pipeline run by `app_main` on one input line:
validate, insert assumed multiplication, tokenize, convert to postfix,
evaluate. -/
def app_pipeline (e : List Char) : Except Err ℚ :=
  match validate_expression e with
  | .error v => .error (.Val v)
  | .ok _ =>
    match shunting_yard (tokenize (insert_assumed_multiplication e)) with
    | .error c => .error (.Conv c)
    | .ok pf =>
      match evaluate_postfix pf with
      | .error ev => .error (.Eval ev)
      | .ok r => .ok r

/- Batteries marks the rational arithmetic operations irreducible; restore
default reducibility locally so that concrete pipeline runs reduce. -/
attribute [local semireducible] Rat.add Rat.mul Rat.inv Rat.sub

/-! Helper lemmas about the operator table and token classes. -/

theorem opTok_cases (t : Tok) (h : isOpTok t = true) :
    t = ['+'] ∨ t = ['-'] ∨ t = ['/'] ∨ t = ['*'] ∨ t = ['~'] ∨ t = ['^'] := by
  simpa [isOpTok, or_assoc] using h

theorem ops_not_float (t : Tok) (h : isOpTok t = true) : is_float t = false := by
  rcases opTok_cases t h with rfl | rfl | rfl | rfl | rfl | rfl <;> rfl

theorem ops_ne_lparen (t : Tok) (h : isOpTok t = true) : (t == lparenT) = false := by
  rcases opTok_cases t h with rfl | rfl | rfl | rfl | rfl | rfl <;> rfl

theorem ops_nonParen (t : Tok) (h : isOpTok t = true) : nonParen t = true := by
  rcases opTok_cases t h with rfl | rfl | rfl | rfl | rfl | rfl <;> rfl

theorem float_nonParen (t : Tok) (h : is_float t = true) : nonParen t = true := by
  have h1 : (t == lparenT) = false := by
    by_cases ht : t = lparenT
    · subst ht; exact absurd h (by decide)
    · exact beq_eq_false_iff_ne.mpr ht
  have h2 : (t == rparenT) = false := by
    by_cases ht : t = rparenT
    · subst ht; exact absurd h (by decide)
    · exact beq_eq_false_iff_ne.mpr ht
  simp [nonParen, h1, h2]

theorem recog_cases (t : Tok) (h : recogTok t = true) :
    is_float t = true ∨ isOpTok t = true ∨ t = lparenT ∨ t = rparenT := by
  simpa [recogTok, Bool.or_assoc] using h

/-- C1: the pipeline on the input string with two chained carets over the
operands two, three, two succeeds with value 512, grouping the
exponentiation right to left; and in general the converter, on an
incoming right-associative operator whose precedence equals that of the
operator on top of the stack, pushes without popping the top. -/
theorem pow_chain_right_assoc :
    app_pipeline ['2', '^', '3', '^', '2'] = .ok 512 ∧
    (∀ t s st out, isOpTok t = true → assocOf t = Assoc.Right →
      isOpTok s = true → precOf s = precOf t →
      syStep t (s :: st) out = .ok (t :: s :: st, out)) := by
  constructor
  · have h : tokenize (insert_assumed_multiplication ['2', '^', '3', '^', '2']) =
        [['2'], ['^'], ['3'], ['^'], ['2']] := by
      simp +decide [insert_assumed_multiplication, subPair, tokenize, tokenizeAux]
    simp only [app_pipeline, h]
    rfl
  · intro t s st out hop hassoc hsop hprec
    have hnf := ops_not_float t hop
    have hsl := ops_ne_lparen s hsop
    have hcond : (!(s == lparenT) &&
        (precOf s > precOf t ||
          (precOf s == precOf t && assocOf t == Assoc.Left))) = false := by
      rw [hprec, hassoc, hsl]
      simp
      rfl
    simp [syStep, hnf, hop, popWhileHigher, hcond]

/-- Witness for C1 at the concrete configuration of a caret arriving on
top of a caret. -/
theorem pow_chain_right_assoc_witness :
    syStep ['^'] [['^']] [] = .ok ([['^'], ['^']], []) :=
  pow_chain_right_assoc.2 ['^'] ['^'] [] [] (by decide) (by decide) (by decide)
    (by decide)

/-- C5: on the input minus, three, plus, five, the tokenizer emits the
unary-negation marker immediately before the number three, and the full
pipeline evaluates the expression to 2. -/
theorem unary_minus_scenario :
    tokenize ['-', '3', '+', '5'] = [['~'], ['3'], ['+'], ['5']] ∧
    app_pipeline ['-', '3', '+', '5'] = .ok 2 := by
  have h : tokenize ['-', '3', '+', '5'] = [['~'], ['3'], ['+'], ['5']] := by
    simp +decide [tokenize, tokenizeAux]
  refine ⟨h, ?_⟩
  have h0 : insert_assumed_multiplication ['-', '3', '+', '5'] = ['-', '3', '+', '5'] := rfl
  simp only [app_pipeline, h0, h]
  rfl

/-- C7: the evaluator fails with a stack underflow when the
unary-negation token arrives on an empty value stack or a binary
operator arrives with fewer than two values; on a sufficient stack the
right operand is the most recently pushed value and the left operand the
one below it. -/
theorem eval_underflow_and_pop_order :
    ∀ (r l : ℚ) (rest : List ℚ),
      (evalStep [] ['~'] = .error .StackUnderflow) ∧
      (∀ t, t ∈ [(['+'] : Tok), ['-'], ['*'], ['/']] →
        evalStep [] t = .error .StackUnderflow) ∧
      (∀ t x, t ∈ [(['+'] : Tok), ['-'], ['*'], ['/']] →
        evalStep [x] t = .error .StackUnderflow) ∧
      (evalStep (r :: l :: rest) ['+'] = .ok ((l + r) :: rest)) ∧
      (evalStep (r :: l :: rest) ['-'] = .ok ((l - r) :: rest)) ∧
      (evalStep (r :: l :: rest) ['*'] = .ok ((l * r) :: rest)) ∧
      (r ≠ 0 → evalStep (r :: l :: rest) ['/'] = .ok ((l / r) :: rest)) := by
  intro r l rest
  refine ⟨rfl, ?_, ?_, rfl, rfl, rfl, ?_⟩
  · intro t ht
    fin_cases ht <;> rfl
  · intro t x ht
    fin_cases ht <;> rfl
  · intro hr
    have hp : pyfloat ['/'] = none := rfl
    simp [evalStep, hp, hr]

/-- Witness for C7 at concrete stacks and operators. -/
theorem eval_underflow_and_pop_order_witness :
    evalStep [] ['+'] = .error .StackUnderflow ∧
    evalStep [(7 : ℚ)] ['-'] = .error .StackUnderflow ∧
    evalStep [(2 : ℚ), 6] ['/'] = .ok [3] :=
  ⟨(eval_underflow_and_pop_order 0 0 []).2.1 ['+'] (by decide),
   (eval_underflow_and_pop_order 0 0 []).2.2.1 ['-'] 7 (by decide),
   by
    have h := (eval_underflow_and_pop_order 2 6 []).2.2.2.2.2.2 (by norm_num)
    norm_num at h
    exact h⟩

/-! Lemmas about the validator. -/

theorem parenScan_ne_empty : ∀ (e : List Char) (n : Int), parenScan e n ≠ .error .EmptyInput := by
  intro e
  induction e with
  | nil =>
    intro n
    simp only [parenScan]
    split <;> simp
  | cons c rest ih =>
    intro n
    simp only [parenScan]
    generalize (if c == '(' then n + 1 else if c == ')' then n - 1 else n) = m
    by_cases hneg : m < 0
    · simp [hneg]
    · simp only [hneg, if_false]
      exact ih m

theorem allSpace_no_adjacent :
    ∀ e : List Char, (∀ c ∈ e, c = ' ') → hasAdjacentNumbers e = false := by
  intro e
  induction e with
  | nil => intro _; rfl
  | cons c rest ih =>
    intro h
    have hc : c = ' ' := h c (List.mem_cons_self c rest)
    subst hc
    simp only [hasAdjacentNumbers]
    have hd : Char.isDigit ' ' = false := rfl
    simp [hd]
    exact ih (fun x hx => h x (List.mem_cons_of_mem _ hx))

theorem allSpace_parenScan :
    ∀ e : List Char, (∀ c ∈ e, c = ' ') → parenScan e 0 = .ok true := by
  intro e
  induction e with
  | nil => intro _; rfl
  | cons c rest ih =>
    intro h
    have hc : c = ' ' := h c (List.mem_cons_self c rest)
    subst hc
    simp only [parenScan]
    norm_num
    exact ih (fun x hx => h x (List.mem_cons_of_mem _ hx))

theorem parenScan_error_iff :
    ∀ (e : List Char) (n : Int), 0 ≤ n →
      (parenScan e n = .error .UnbalancedParentheses ↔ spec_counter_bad e n = true) := by
  intro e
  induction e with
  | nil =>
    intro n h0
    simp only [parenScan, spec_counter_bad]
    by_cases hn : 0 < n
    · simp [hn]
      omega
    · simp [hn]
      omega
  | cons c rest ih =>
    intro n h0
    simp only [parenScan, spec_counter_bad]
    generalize hm : (if c == '(' then n + 1 else if c == ')' then n - 1 else n) = m
    have hmn : n - 1 ≤ m := by
      rw [← hm]
      split
      · omega
      · split <;> omega
    by_cases hneg : m < 0
    · simp [hneg]
    · simp only [hneg, if_false]
      exact ih m (by omega)

/-- C4 (corrected): the validator rejects with the empty-input error
exactly the empty string; a nonempty string made of spaces passes the
emptiness check and indeed validates successfully, contrary to the
claim that any whitespace-only string fails with the empty-input
error. -/
theorem empty_input_only_for_empty :
    (∀ e, validate_expression e = .error .EmptyInput ↔ e = []) ∧
    (∀ e, e ≠ [] → (∀ c ∈ e, c = ' ') → validate_expression e = .ok true) := by
  constructor
  · intro e
    constructor
    · intro h
      by_contra hne
      have hie : e.isEmpty = false := by
        simpa [List.isEmpty_iff] using hne
      simp only [validate_expression, hie, Bool.false_eq_true, if_false] at h
      split at h
      · exact ValErr.noConfusion (Except.error.inj h)
      · split at h
        · exact ValErr.noConfusion (Except.error.inj h)
        · exact parenScan_ne_empty e 0 h
    · rintro rfl
      rfl
  · intro e hne hsp
    have hie : e.isEmpty = false := by
      simpa [List.isEmpty_iff] using hne
    have hval : (e.any fun c => !(valid_chars.contains c)) = false := by
      rw [List.any_eq_false]
      intro c hc
      rw [hsp c hc]
      decide
    have hadj : hasAdjacentNumbers e = false := allSpace_no_adjacent e hsp
    have hps : parenScan e 0 = .ok true := allSpace_parenScan e hsp
    simp only [validate_expression, hie, hval, hadj]
    exact hps

/-- Counterexample to C4 as stated: the one-space string is
whitespace-only, yet the validator returns success instead of failing
with the empty-input error. -/
theorem whitespace_only_validates_cex : validate_expression [' '] = .ok true := rfl

/-- Witness for C4 at the two-space string. -/
theorem empty_input_only_for_empty_witness : validate_expression [' ', ' '] = .ok true :=
  empty_input_only_for_empty.2 [' ', ' '] (by simp) (by decide)

/-- C8 (corrected): for strings over the allowed character set in which
no two digit runs are separated only by whitespace, the validator fails
with the unbalanced-parentheses error exactly when the left-to-right
counter goes negative or ends nonzero.  (Without the adjacent-numbers
restriction the equivalence fails, see the counterexample.) -/
theorem unbalanced_iff_counter :
    ∀ e, (∀ c ∈ e, valid_chars.contains c = true) → hasAdjacentNumbers e = false →
      (validate_expression e = .error .UnbalancedParentheses ↔
        spec_counter_bad e 0 = true) := by
  intro e hv hadj
  by_cases hne : e = []
  · subst hne
    constructor
    · intro h
      exact absurd h (by decide)
    · intro h
      exact absurd h (by decide)
  · have hie : e.isEmpty = false := by
      simpa [List.isEmpty_iff] using hne
    have hval : (e.any fun c => !(valid_chars.contains c)) = false := by
      rw [List.any_eq_false]
      intro c hc
      rw [hv c hc]
      decide
    simp only [validate_expression, hie, hval, hadj]
    exact parenScan_error_iff e 0 (le_refl 0)

/-- Counterexample to C8 as stated: the string one, space, two, open
parenthesis is over the allowed character set and its counter ends
nonzero, but the validator fails with the adjacent-numbers error, not
the unbalanced-parentheses error. -/
theorem unbalanced_iff_counter_cex :
    (['1', ' ', '2', '('].all fun c => valid_chars.contains c) = true ∧
    spec_counter_bad ['1', ' ', '2', '('] 0 = true ∧
    validate_expression ['1', ' ', '2', '('] = .error .AdjacentNumbers ∧
    validate_expression ['1', ' ', '2', '('] ≠ .error .UnbalancedParentheses :=
  ⟨rfl, rfl, rfl, by decide⟩

/-- Witness for C8: the boundary input open parenthesis, one, plus, two
fails with the unbalanced-parentheses error. -/
theorem unbalanced_iff_counter_witness :
    validate_expression ['(', '1', '+', '2'] = .error .UnbalancedParentheses :=
  (unbalanced_iff_counter ['(', '1', '+', '2'] (by decide) (by decide)).mpr (by decide)

/-- C3 (corrected): when the evaluation loop ends with an empty value
stack the final pop fails with a stack underflow (not a malformed
expression error, which the code does not have); and when it ends with
one or more values the evaluator returns the most recently pushed value,
silently discarding any values below it instead of failing. -/
theorem eval_final_pop :
    ∀ pf s, evalLoop pf [] = .ok s →
      (s = [] → evaluate_postfix pf = .error .StackUnderflow) ∧
      (∀ v rest, s = v :: rest → evaluate_postfix pf = .ok v) := by
  intro pf s h
  constructor
  · rintro rfl
    unfold evaluate_postfix
    rw [h]
  · rintro v rest rfl
    unfold evaluate_postfix
    rw [h]

/-- Counterexample to C3 as stated: on a postfix sequence of two plain
numbers the loop ends with two values on the stack, yet the evaluator
returns the top value as a successful result instead of failing. -/
theorem eval_extra_values_cex :
    evalLoop [['3'], ['4']] [] = .ok [4, 3] ∧
    evaluate_postfix [['3'], ['4']] = .ok 4 := ⟨rfl, rfl⟩

/-- Witness for C3 at a two-number postfix sequence. -/
theorem eval_final_pop_witness : evaluate_postfix [['5'], ['6']] = .ok 6 :=
  (eval_final_pop [['5'], ['6']] [6, 5] rfl).2 6 [5] rfl

/-- C2 (corrected): a malformed number token is passed through
tokenization uninterpreted as a single token, but the converter
silently drops any token that is neither a parseable number nor an
operator nor a parenthesis (the source loop has no fall-through
branch), so the token never reaches the output queue; evaluating the
resulting empty postfix sequence then fails with a stack underflow on
the final pop, and no malformed-number error exists in the code. -/
theorem malformed_number_dropped :
    tokenize ['1', '.', '2', '.', '3'] = [['1', '.', '2', '.', '3']] ∧
    is_float ['1', '.', '2', '.', '3'] = false ∧
    (∀ st out t, is_float t = false → isOpTok t = false →
      t ≠ lparenT → t ≠ rparenT → syStep t st out = .ok (st, out)) ∧
    shunting_yard [['1', '.', '2', '.', '3']] = .ok [] ∧
    evaluate_postfix [] = .error .StackUnderflow := by
  refine ⟨by simp +decide [tokenize, tokenizeAux], rfl, ?_, rfl, rfl⟩
  intro st out t hf hop hlp hrp
  have h1 : (t == lparenT) = false := beq_eq_false_iff_ne.mpr hlp
  have h2 : (t == rparenT) = false := beq_eq_false_iff_ne.mpr hrp
  simp [syStep, hf, hop, h1, h2]

/-- Counterexample to C2 as stated: converting the single malformed
token yields an empty output queue, so the token does not appear in the
output queue. -/
theorem malformed_number_in_queue_cex :
    shunting_yard [['1', '.', '2', '.', '3']] = .ok [] ∧
    ['1', '.', '2', '.', '3'] ∉ ([] : List Tok) := ⟨rfl, by simp⟩

/-- Witness for C2: the drop step at the malformed token on empty stack
and queue. -/
theorem malformed_number_dropped_witness :
    syStep ['1', '.', '2', '.', '3'] [] [] = .ok ([], []) :=
  malformed_number_dropped.2.2.1 [] [] ['1', '.', '2', '.', '3'] (by decide) (by decide)
    (by decide) (by decide)

/-! Lemmas about the converter failure cases. -/

theorem popUntilParen_error_iff :
    ∀ st out, popUntilParen st out = .error .MismatchedParenthesis ↔ lparenT ∉ st := by
  intro st
  induction st with
  | nil =>
    intro out
    simp [popUntilParen]
  | cons s st ih =>
    intro out
    by_cases hs : (s == lparenT) = true
    · have hseq : s = lparenT := eq_of_beq hs
      subst hseq
      simp [popUntilParen]
    · have hne : ¬(lparenT = s) := fun h => by simp [← h] at hs
      simp [popUntilParen, hs, ih (out ++ [s]), List.mem_cons, hne]

theorem flushAll_error_iff :
    ∀ st out, flushAll st out = .error .MismatchedParenthesis ↔ lparenT ∈ st := by
  intro st
  induction st with
  | nil =>
    intro out
    simp [flushAll]
  | cons s st ih =>
    intro out
    by_cases hs : (s == lparenT) = true
    · have hseq : s = lparenT := eq_of_beq hs
      subst hseq
      simp [flushAll]
    · have hne : ¬(lparenT = s) := fun h => by simp [← h] at hs
      simp [flushAll, hs, ih (out ++ [s]), List.mem_cons, hne]

/-- C6: the converter fails (with the mismatched-parenthesis error, its
only failure mode) in exactly two situations: handling a close
parenthesis when the stack holds no open parenthesis, and the final
flush when an open parenthesis remains on the stack; on any other
recognized token the step succeeds. -/
theorem mismatched_paren_cases :
    ∀ st out,
      (popUntilParen st out = .error .MismatchedParenthesis ↔ lparenT ∉ st) ∧
      (flushAll st out = .error .MismatchedParenthesis ↔ lparenT ∈ st) ∧
      (∀ t, is_float t = true ∨ isOpTok t = true ∨ t = lparenT →
        ∃ p, syStep t st out = .ok p) := by
  intro st out
  refine ⟨popUntilParen_error_iff st out, flushAll_error_iff st out, ?_⟩
  intro t ht
  rcases ht with hf | hop | rfl
  · exact ⟨(st, out ++ [t]), by simp [syStep, hf]⟩
  · exact ⟨(t :: (popWhileHigher t st out).1, (popWhileHigher t st out).2),
      by simp [syStep, ops_not_float t hop, hop]⟩
  · exact ⟨(lparenT :: st, out), rfl⟩

/-- Witness for C6 at concrete stacks: failing close parenthesis,
failing flush over a stray open parenthesis, and a succeeding operator
step. -/
theorem mismatched_paren_cases_witness :
    (popUntilParen [] [] = .error .MismatchedParenthesis) ∧
    (flushAll [lparenT] [] = .error .MismatchedParenthesis) ∧
    (∃ p, syStep ['+'] [] [] = .ok p) :=
  ⟨(mismatched_paren_cases [] []).1.mpr (by simp),
   (mismatched_paren_cases [lparenT] []).2.1.mpr (by simp),
   (mismatched_paren_cases [] []).2.2 ['+'] (Or.inr (Or.inl (by decide)))⟩

/-! Lemmas about the normalizer. -/

theorem mem_subPair (p q : Char → Bool) :
    ∀ l a, a ∈ subPair p q l → a ∈ l ∨ a = '*'
  | [], a => by simp [subPair]
  | [c], a => by
    simp [subPair]
    intro h
    exact Or.inl h
  | c1 :: c2 :: rest, a => by
    simp only [subPair]
    split
    · intro h
      simp only [List.mem_cons] at h
      rcases h with rfl | rfl | rfl | h
      · exact Or.inl (by simp)
      · exact Or.inr rfl
      · exact Or.inl (by simp)
      · rcases mem_subPair p q rest a h with h' | h'
        · exact Or.inl (by simp [h'])
        · exact Or.inr h'
    · intro h
      simp only [List.mem_cons] at h
      rcases h with rfl | h
      · exact Or.inl (by simp)
      · rcases mem_subPair p q (c2 :: rest) a h with h' | h'
        · exact Or.inl (List.mem_cons_of_mem _ h')
        · exact Or.inr h'

theorem noPair_subPair (p q : Char → Bool) :
    ∀ l, hasPairAt p q l = false → subPair p q l = l
  | [] => by intro _; rfl
  | [c] => by intro _; rfl
  | c1 :: c2 :: rest => by
    intro h
    simp only [hasPairAt, Bool.or_eq_false_iff] at h
    obtain ⟨h1, h2⟩ := h
    simp only [subPair, h1, Bool.false_eq_true, if_false]
    rw [noPair_subPair p q (c2 :: rest) h2]

/-- C9: the normalizer is idempotent on a string whose normal form
contains no remaining implicit-multiplication pattern: stripping
whitespace is the identity on the (whitespace-free) output, and each of
the three rewrite passes is the identity when its pattern is absent. -/
theorem normalize_idempotent :
    ∀ s, hasMulPattern (insert_assumed_multiplication s) = false →
      insert_assumed_multiplication (insert_assumed_multiplication s) =
        insert_assumed_multiplication s := by
  intro s h
  simp only [hasMulPattern, Bool.or_eq_false_iff] at h
  obtain ⟨⟨h1, h2⟩, h3⟩ := h
  have hws : (insert_assumed_multiplication s).filter (fun c => !(isPySpace c)) =
      insert_assumed_multiplication s := by
    apply List.filter_eq_self.mpr
    intro a ha
    have ha1 := mem_subPair _ _ _ a ha
    rcases ha1 with ha1 | rfl
    · rcases mem_subPair _ _ _ a ha1 with ha2 | rfl
      · rcases mem_subPair _ _ _ a ha2 with ha3 | rfl
        · exact (List.mem_filter.mp ha3).2
        · decide
      · decide
    · decide
  have hstep : insert_assumed_multiplication (insert_assumed_multiplication s) =
      subPair (fun c => c == ')') (fun c => c == '(')
        (subPair (fun c => c == ')') Char.isDigit
          (subPair Char.isDigit (fun c => c == '(')
            ((insert_assumed_multiplication s).filter (fun c => !(isPySpace c))))) := rfl
  rw [hstep, hws, noPair_subPair _ _ _ h1, noPair_subPair _ _ _ h2,
    noPair_subPair _ _ _ h3]

/-- Witness for C9 at the implicit-multiplication input two, open
parenthesis, three, close parenthesis. -/
theorem normalize_idempotent_witness :
    hasMulPattern (insert_assumed_multiplication ['2', '(', '3', ')']) = false ∧
    insert_assumed_multiplication (insert_assumed_multiplication ['2', '(', '3', ')']) =
      insert_assumed_multiplication ['2', '(', '3', ')'] :=
  ⟨rfl, normalize_idempotent ['2', '(', '3', ')'] rfl⟩

/-! Conservation of tokens through the converter. -/

theorem popWhileHigher_spec (t : Tok) :
    ∀ st out, ∃ pre st2, st = pre ++ st2 ∧
      popWhileHigher t st out = (st2, out ++ pre) ∧
      ∀ x ∈ pre, (x == lparenT) = false
  | [], out => ⟨[], [], rfl, by simp [popWhileHigher], by simp⟩
  | s :: st, out => by
    cases hcond : (!(s == lparenT) &&
        (precOf s > precOf t || (precOf s == precOf t && assocOf t == Assoc.Left))) with
    | true =>
      obtain ⟨pre, st2, he, hr, hn⟩ := popWhileHigher_spec t st (out ++ [s])
      refine ⟨s :: pre, st2, ?_, ?_, ?_⟩
      · rw [List.cons_append, ← he]
      · simp only [popWhileHigher, hcond, if_true]
        rw [hr]
        simp
      · intro x hx
        rcases List.mem_cons.mp hx with rfl | hx2
        · simpa using ((Bool.and_eq_true _ _).mp hcond).1
        · exact hn x hx2
    | false =>
      refine ⟨[], s :: st, by simp, ?_, by simp⟩
      simp [popWhileHigher, hcond]

theorem popUntilParen_ok :
    ∀ st out st2 out2, popUntilParen st out = .ok (st2, out2) →
      ∃ pre, st = pre ++ lparenT :: st2 ∧ out2 = out ++ pre ∧
        ∀ x ∈ pre, (x == lparenT) = false
  | [], out, st2, out2 => by
    intro h
    exact absurd h (by simp [popUntilParen])
  | s :: st, out, st2, out2 => by
    intro h
    cases hs : (s == lparenT) with
    | true =>
      have hseq : s = lparenT := eq_of_beq hs
      subst hseq
      simp [popUntilParen] at h
      obtain ⟨h1, h2⟩ := h
      exact ⟨[], by simp [h1], by simp [h2], by simp⟩
    | false =>
      simp only [popUntilParen, hs, Bool.false_eq_true, if_false] at h
      obtain ⟨pre, he, ho, hn⟩ := popUntilParen_ok st (out ++ [s]) st2 out2 h
      refine ⟨s :: pre, ?_, ?_, ?_⟩
      · rw [List.cons_append, he]
      · rw [ho]
        simp
      · intro x hx
        rcases List.mem_cons.mp hx with rfl | hx2
        · exact hs
        · exact hn x hx2

theorem flushAll_ok :
    ∀ st out q, flushAll st out = .ok q → q = out ++ st ∧ lparenT ∉ st
  | [], out, q => by
    intro h
    simp [flushAll] at h
    exact ⟨by simp [h], by simp⟩
  | s :: st, out, q => by
    intro h
    cases hs : (s == lparenT) with
    | true =>
      simp [flushAll, hs] at h
    | false =>
      simp only [flushAll, hs, Bool.false_eq_true, if_false] at h
      obtain ⟨hq, hnl⟩ := flushAll_ok st (out ++ [s]) q h
      constructor
      · rw [hq]
        simp
      · intro hmem
        rcases List.mem_cons.mp hmem with heq | hmem2
        · subst heq
          simp at hs
        · exact hnl hmem2

theorem syRun_inv :
    ∀ ts st out q, (∀ t ∈ ts, recogTok t = true) → stackOk st →
      syRun ts st out = .ok q →
      ((∀ x, q.count x =
          out.count x + (st.filter keepTok).count x + (ts.filter nonParen).count x) ∧
        q.filter is_float = out.filter is_float ++ ts.filter is_float) := by
  intro ts
  induction ts with
  | nil =>
    intro st out q _ hst hrun
    simp only [syRun] at hrun
    obtain ⟨hq, hnl⟩ := flushAll_ok st out q hrun
    subst hq
    have hfe : st.filter keepTok = st := by
      apply List.filter_eq_self.mpr
      intro a ha
      have hne : a ≠ lparenT := fun hh => hnl (hh ▸ ha)
      simp [keepTok, hne]
    have hnf : st.filter is_float = [] := by
      rw [List.filter_eq_nil_iff]
      intro a ha
      rcases hst a ha with hop | rfl
      · simp [ops_not_float a hop]
      · decide
    constructor
    · intro x
      simp [hfe, List.count_append]
    · simp [List.filter_append, hnf]
  | cons t ts ih =>
    intro st out q hrec hst hrun
    have hrt := hrec t (List.mem_cons_self t ts)
    have hrts : ∀ x ∈ ts, recogTok x = true := fun x hx => hrec x (List.mem_cons_of_mem t hx)
    rcases recog_cases t hrt with hf | hop | rfl | rfl
    · have hstep : syStep t st out = .ok (st, out ++ [t]) := by
        simp [syStep, hf]
      simp only [syRun, hstep] at hrun
      obtain ⟨h1, h2⟩ := ih st (out ++ [t]) q hrts hst hrun
      have hnp : nonParen t = true := float_nonParen t hf
      constructor
      · intro x
        rw [h1 x, List.filter_cons_of_pos hnp]
        simp [List.count_append, List.count_cons]
        omega
      · rw [h2, List.filter_append, List.filter_cons_of_pos hf]
        simp [hf]
    · have hnf := ops_not_float t hop
      obtain ⟨pre, st2, he, hpw, hn⟩ := popWhileHigher_spec t st out
      have hstep : syStep t st out = .ok (t :: st2, out ++ pre) := by
        simp [syStep, hnf, hop, hpw]
      simp only [syRun, hstep] at hrun
      have hst2 : stackOk (t :: st2) := by
        intro x hx
        rcases List.mem_cons.mp hx with rfl | hx2
        · exact Or.inl hop
        · exact hst x (he ▸ List.mem_append_right pre hx2)
      obtain ⟨h1, h2⟩ := ih (t :: st2) (out ++ pre) q hrts hst2 hrun
      have hkt : keepTok t = true := by
        simp [keepTok, ops_ne_lparen t hop]
      have hnp : nonParen t = true := ops_nonParen t hop
      have hpre_keep : pre.filter keepTok = pre :=
        List.filter_eq_self.mpr (fun a ha => by simp [keepTok, hn a ha])
      have hpre_float : pre.filter is_float = [] := by
        rw [List.filter_eq_nil_iff]
        intro a ha
        have hx : a ∈ st := he ▸ List.mem_append_left st2 ha
        rcases hst a hx with hxo | rfl
        · simp [ops_not_float a hxo]
        · exact absurd (hn _ ha) (by simp)
      constructor
      · intro x
        rw [h1 x, he, List.filter_append, hpre_keep, List.filter_cons_of_pos hkt,
          List.filter_cons_of_pos hnp]
        simp [List.count_append, List.count_cons]
        omega
      · rw [h2, List.filter_append, hpre_float, List.filter_cons_of_neg (by simp [hnf])]
        simp
    · have hstep : syStep lparenT st out = .ok (lparenT :: st, out) := rfl
      simp only [syRun, hstep] at hrun
      have hst2 : stackOk (lparenT :: st) := by
        intro x hx
        rcases List.mem_cons.mp hx with rfl | hx2
        · exact Or.inr rfl
        · exact hst x hx2
      obtain ⟨h1, h2⟩ := ih (lparenT :: st) out q hrts hst2 hrun
      have e1 : (lparenT :: st).filter keepTok = st.filter keepTok :=
        List.filter_cons_of_neg (by decide)
      have e2 : (lparenT :: ts).filter nonParen = ts.filter nonParen :=
        List.filter_cons_of_neg (by decide)
      have e3 : (lparenT :: ts).filter is_float = ts.filter is_float :=
        List.filter_cons_of_neg (by decide)
      constructor
      · intro x
        rw [h1 x, e1, e2]
      · rw [h2, e3]
    · have hstep : syStep rparenT st out = popUntilParen st out := rfl
      simp only [syRun, hstep] at hrun
      cases hpu : popUntilParen st out with
      | error e =>
        rw [hpu] at hrun
        simp at hrun
      | ok p =>
        obtain ⟨st2, out2⟩ := p
        rw [hpu] at hrun
        simp only [] at hrun
        obtain ⟨pre, he, ho, hn⟩ := popUntilParen_ok st out st2 out2 hpu
        subst ho
        have hst2 : stackOk st2 := by
          intro x hx
          apply hst x
          rw [he]
          exact List.mem_append_right pre (List.mem_cons_of_mem _ hx)
        obtain ⟨h1, h2⟩ := ih st2 (out ++ pre) q hrts hst2 hrun
        have hpre_keep : pre.filter keepTok = pre :=
          List.filter_eq_self.mpr (fun a ha => by simp [keepTok, hn a ha])
        have hpre_float : pre.filter is_float = [] := by
          rw [List.filter_eq_nil_iff]
          intro a ha
          have hx : a ∈ st := he ▸ List.mem_append_left _ ha
          rcases hst a hx with hxo | rfl
          · simp [ops_not_float a hxo]
          · exact absurd (hn _ ha) (by simp)
        have e1 : (rparenT :: ts).filter nonParen = ts.filter nonParen :=
          List.filter_cons_of_neg (by decide)
        have e3 : (rparenT :: ts).filter is_float = ts.filter is_float :=
          List.filter_cons_of_neg (by decide)
        have e4 : st.filter keepTok = pre ++ st2.filter keepTok := by
          rw [he, List.filter_append, hpre_keep, List.filter_cons_of_neg (by decide)]
        constructor
        · intro x
          rw [h1 x, e1, e4]
          simp [List.count_append]
          omega
        · rw [h2, e3, List.filter_append, hpre_float]
          simp

/-- C10: on a sequence of recognized tokens, a successful conversion
produces exactly the number and operator tokens of the input, with
every parenthesis removed and nothing added, dropped or duplicated
(equal multiset, stated through counts), and the number tokens keep
their relative order; the operator stack is exhausted into the output
by construction of the final flush. -/
theorem convert_conservation :
    ∀ ts q, (∀ t ∈ ts, recogTok t = true) → shunting_yard ts = .ok q →
      ((∀ x, q.count x = (ts.filter nonParen).count x) ∧
        q.filter is_float = ts.filter is_float) := by
  intro ts q hrec hrun
  obtain ⟨h1, h2⟩ :=
    syRun_inv ts [] [] q hrec (fun x hx => absurd hx (List.not_mem_nil x)) hrun
  constructor
  · intro x
    simpa using h1 x
  · simpa using h2

/-- Witness for C10 at the token sequence two, plus, three. -/
theorem convert_conservation_witness :
    shunting_yard [['2'], ['+'], ['3']] = .ok [['2'], ['3'], ['+']] ∧
    ([['2'], ['3'], ['+']] : List Tok).filter is_float =
      ([['2'], ['+'], ['3']] : List Tok).filter is_float ∧
    ([['2'], ['3'], ['+']] : List Tok).count ['+'] =
      (([['2'], ['+'], ['3']] : List Tok).filter nonParen).count ['+'] :=
  ⟨rfl,
   (convert_conservation [['2'], ['+'], ['3']] [['2'], ['3'], ['+']] (by decide) rfl).2,
   (convert_conservation [['2'], ['+'], ['3']] [['2'], ['3'], ['+']] (by decide) rfl).1 ['+']⟩

end App
